import Mathlib

/-!
# Verification of the bit-plane buffer engine (`src/bitplane.rs`)

Shallow embedding of the `Bitplanes` type and its operations. Bytes are
natural numbers kept below 256; machine panics (slice index out of range,
`chunks` with chunk size zero, `copy_from_slice` length mismatch, `usize`
subtraction underflow) are modeled by returning `Option.none`.
-/

structure Bitplanes where
  width : Nat
  height : Nat
  planes : Nat
  plane_stride : Nat
  row_stride : Nat
  data : List Nat
deriving DecidableEq

namespace Bitplanes

/-- `Bitplanes::calc_indices`: byte index and MSB-first bit index of `(plane, x, y)`. -/
def calc_indices (b : Bitplanes) (plane x y : Nat) : Nat × Nat :=
  (b.plane_stride * plane + b.row_stride * y + x / 8, 7 - x % 8)

/-- `Bitplanes::get`: reads one bit; `none` models the slice-index panic. -/
def get (b : Bitplanes) (plane x y : Nat) : Option Bool :=
  let bi := b.calc_indices plane x y
  if bi.1 < b.data.length then
    some (decide (0 < b.data.getD bi.1 0 &&& (1 <<< bi.2)))
  else none

/-- One bit write into a byte list: `data[idx] |= 1 << bit` or `data[idx] &= !(1 << bit)`
(the `u8` complement of `1 << bit` is `255 ^^^ (1 <<< bit)` for `bit < 8`). -/
def setBitAt (d : List Nat) (idx bit : Nat) (v : Bool) : List Nat :=
  d.set idx (if v then d.getD idx 0 ||| (1 <<< bit) else d.getD idx 0 &&& (255 ^^^ (1 <<< bit)))

/-- `Bitplanes::set`: writes one bit; `none` models the slice-index panic. -/
def set (b : Bitplanes) (plane x y : Nat) (v : Bool) : Option Bitplanes :=
  let bi := b.calc_indices plane x y
  if bi.1 < b.data.length then some { b with data := setBitAt b.data bi.1 bi.2 v } else none

/-- `Bitplanes::fill`: sets every storage byte to 255 or 0. -/
def fill (b : Bitplanes) (v : Bool) : Bitplanes :=
  { b with data := List.replicate b.data.length (if v then 255 else 0) }

/-- Number of chunks produced by Rust `slice::chunks(k)` on a slice of length `L`
(meaningful only for `k ≠ 0`; `chunks(0)` panics and is guarded at each call site). -/
def numChunks (L k : Nat) : Nat := (L + k - 1) / k

/-- Length of chunk `i` produced by `chunks(k)` on a slice of length `L`. -/
def chunkLen (L k i : Nat) : Nat := min k (L - i * k)

/-- `Bitplanes::new`: zero-filled owned buffer with canonical strides. -/
def new (planes width height : Nat) : Bitplanes :=
  let row_stride := (width + 7) / 8
  let plane_stride := row_stride * height
  { width := width, height := height, planes := planes,
    plane_stride := plane_stride, row_stride := row_stride,
    data := List.replicate (plane_stride * planes) 0 }

/-- The nested loop body of `Bitplanes::fill_from_fn`: for each plane chunk `i`,
each row chunk `y` inside it, and each `x < width`, write bit `7 - x % 8` of
byte `i*plane_stride + y*row_stride + x/8` from `f i x y`. -/
def fillData (b : Bitplanes) (f : Nat → Nat → Nat → Bool) : List Nat :=
  (List.range (numChunks b.data.length b.plane_stride)).foldl (fun d i =>
    (List.range (numChunks (chunkLen b.data.length b.plane_stride i) b.row_stride)).foldl (fun d2 y =>
      (List.range b.width).foldl (fun d3 x =>
        setBitAt d3 (i * b.plane_stride + y * b.row_stride + x / 8) (7 - x % 8) (f i x y)) d2) d)
    b.data

/-- Panic-freedom condition of `Bitplanes::fill_from_fn`: the outer `chunks_mut`
needs a nonzero chunk size, the inner one too whenever it is reached, and every
byte index written must fall inside its row chunk. -/
def fillOk (b : Bitplanes) : Prop :=
  b.plane_stride ≠ 0 ∧
  (numChunks b.data.length b.plane_stride = 0 ∨ b.row_stride ≠ 0) ∧
  ∀ i ∈ List.range (numChunks b.data.length b.plane_stride),
    ∀ y ∈ List.range (numChunks (chunkLen b.data.length b.plane_stride i) b.row_stride),
      ∀ x ∈ List.range b.width,
        x / 8 < min b.row_stride (chunkLen b.data.length b.plane_stride i - y * b.row_stride)

instance (b : Bitplanes) : Decidable (fillOk b) := by
  unfold fillOk; infer_instance

/-- `Bitplanes::fill_from_fn`; `none` models the `chunks_mut(0)` / row-index panics. -/
def fill_from_fn (b : Bitplanes) (f : Nat → Nat → Nat → Bool) : Option Bitplanes :=
  if fillOk b then some { b with data := fillData b f } else none

/-- `Bitplanes::from_fn`: `new` followed by `fill_from_fn`. -/
def from_fn (planes width height : Nat) (f : Nat → Nat → Nat → Bool) : Option Bitplanes :=
  (new planes width height).fill_from_fn f

/-- `dst[doff..doff+len].copy_from_slice(&s[soff..soff+len])` acting on whole lists
(call sites guard that both ranges are in bounds). -/
def copyWithin (d s : List Nat) (doff soff len : Nat) : List Nat :=
  (List.range d.length).map fun i =>
    if doff ≤ i ∧ i < doff + len then s.getD (soff + (i - doff)) 0 else d.getD i 0

/-- Data produced by `copy_from` strategy 2 (equal row strides, different plane
strides): per zipped plane chunk, copy `row_stride*height` bytes. -/
def strat2Data (dst src : Bitplanes) : List Nat :=
  let n := min (numChunks dst.data.length dst.plane_stride)
               (numChunks src.data.length src.plane_stride)
  let len := dst.row_stride * dst.height
  (List.range n).foldl
    (fun d p => copyWithin d src.data (p * dst.plane_stride) (p * src.plane_stride) len)
    dst.data

/-- Panic-freedom condition of `copy_from` strategy 2. -/
def strat2Ok (dst src : Bitplanes) : Prop :=
  dst.plane_stride ≠ 0 ∧ src.plane_stride ≠ 0 ∧
  ∀ p ∈ List.range (min (numChunks dst.data.length dst.plane_stride)
                        (numChunks src.data.length src.plane_stride)),
    dst.row_stride * dst.height ≤ chunkLen dst.data.length dst.plane_stride p ∧
    dst.row_stride * dst.height ≤ chunkLen src.data.length src.plane_stride p

instance (dst src : Bitplanes) : Decidable (strat2Ok dst src) := by
  unfold strat2Ok; infer_instance

/-- Rows iterated by `copy_from` strategy 3 in plane chunk `p`:
`zip` of the two row-chunk iterators followed by `take(height)`. -/
def rowsIter (dst src : Bitplanes) (p : Nat) : Nat :=
  min (min (numChunks (chunkLen dst.data.length dst.plane_stride p) dst.row_stride)
           (numChunks (chunkLen src.data.length src.plane_stride p) src.row_stride))
      dst.height

/-- Data produced by `copy_from` strategy 3 (different row strides): per plane
chunk and per row chunk, copy `(width+7)/8` bytes. -/
def strat3Data (dst src : Bitplanes) : List Nat :=
  let n := min (numChunks dst.data.length dst.plane_stride)
               (numChunks src.data.length src.plane_stride)
  let len := (dst.width + 7) / 8
  (List.range n).foldl (fun d p =>
    (List.range (rowsIter dst src p)).foldl (fun d2 y =>
      copyWithin d2 src.data (p * dst.plane_stride + y * dst.row_stride)
        (p * src.plane_stride + y * src.row_stride) len) d)
    dst.data

/-- Panic-freedom condition of `copy_from` strategy 3. -/
def strat3Ok (dst src : Bitplanes) : Prop :=
  dst.plane_stride ≠ 0 ∧ src.plane_stride ≠ 0 ∧
  (min (numChunks dst.data.length dst.plane_stride)
       (numChunks src.data.length src.plane_stride) = 0 ∨
    (dst.row_stride ≠ 0 ∧ src.row_stride ≠ 0)) ∧
  ∀ p ∈ List.range (min (numChunks dst.data.length dst.plane_stride)
                        (numChunks src.data.length src.plane_stride)),
    ∀ y ∈ List.range (rowsIter dst src p),
      (dst.width + 7) / 8 ≤
        min dst.row_stride (chunkLen dst.data.length dst.plane_stride p - y * dst.row_stride) ∧
      (dst.width + 7) / 8 ≤
        min src.row_stride (chunkLen src.data.length src.plane_stride p - y * src.row_stride)

instance (dst src : Bitplanes) : Decidable (strat3Ok dst src) := by
  unfold strat3Ok; infer_instance

/-- `Bitplanes::copy_from`: geometry checks, then one of three stride-selected
strategies. `none` models every panic (the three geometry panics and the
slice-operation panics inside the strategies). -/
def copy_from (dst src : Bitplanes) : Option Bitplanes :=
  if dst.planes ≠ src.planes then none
  else if dst.width ≠ src.width then none
  else if dst.height ≠ src.height then none
  else if dst.plane_stride = src.plane_stride ∧ dst.row_stride = src.row_stride then
    if dst.data.length = src.data.length then some { dst with data := src.data } else none
  else if dst.row_stride = src.row_stride then
    if strat2Ok dst src then some { dst with data := strat2Data dst src } else none
  else
    if strat3Ok dst src then some { dst with data := strat3Data dst src } else none

/-- `Bitplanes::plane_range`: a sub-view of planes `[start, stop)`. The `usize`
subtraction `stop - start` underflows when `start > stop` (first guard); the
slice `data[start*plane_stride .. stop*plane_stride]` panics when its end
exceeds the storage length (second guard; its start never exceeds its end once
`start ≤ stop`). -/
def plane_range (b : Bitplanes) (start stop : Nat) : Option Bitplanes :=
  if start > stop then none
  else if stop * b.plane_stride ≤ b.data.length then
    some { width := b.width, height := b.height, planes := stop - start,
           plane_stride := b.plane_stride, row_stride := b.row_stride,
           data := (b.data.take (stop * b.plane_stride)).drop (start * b.plane_stride) }
  else none

/-- `Bitplanes::plane`: the single-plane view `plane_range (n..n+1)`. -/
def plane (b : Bitplanes) (n : Nat) : Option Bitplanes :=
  b.plane_range n (n + 1)

/-- Exchange of the two byte ranges `[off0, off0+len)` and `[off1, off1+len)`
(`swap_with_slice`; call sites guard disjointness and bounds). -/
def swapRanges (d : List Nat) (off0 off1 len : Nat) : List Nat :=
  (List.range d.length).map fun i =>
    if off0 ≤ i ∧ i < off0 + len then d.getD (off1 + (i - off0)) 0
    else if off1 ≤ i ∧ i < off1 + len then d.getD (off0 + (i - off1)) 0
    else d.getD i 0

/-- `Bitplanes::swap_planes`: panics when `p0 = p1`; otherwise orders the two
indices, splits at `max*plane_stride` and swaps one plane-sized range from each
side. The guard collects the `split_at_mut` and range-slicing panic conditions. -/
def swap_planes (b : Bitplanes) (p0 p1 : Nat) : Option Bitplanes :=
  if p0 = p1 then none
  else
    let q0 := min p0 p1
    let q1 := max p0 p1
    let split := q1 * b.plane_stride
    if split ≤ b.data.length ∧ q0 * b.plane_stride + b.plane_stride ≤ split ∧
        b.plane_stride ≤ b.data.length - split then
      some { b with data := swapRanges b.data (q0 * b.plane_stride) split b.plane_stride }
    else none

/-- `Bitplanes::split_at_plane`: `split_at_mut(p*plane_stride)` (panics past the
storage length) followed by two views; `self.planes - p` underflows for
`p > planes`. -/
def split_at_plane (b : Bitplanes) (p : Nat) : Option (Bitplanes × Bitplanes) :=
  let split := p * b.plane_stride
  if split ≤ b.data.length ∧ p ≤ b.planes then
    some ({ width := b.width, height := b.height, planes := p,
            plane_stride := b.plane_stride, row_stride := b.row_stride,
            data := b.data.take split },
          { width := b.width, height := b.height, planes := b.planes - p,
            plane_stride := b.plane_stride, row_stride := b.row_stride,
            data := b.data.drop split })
  else none

/-- Canonical stride invariant: every buffer this library constructs satisfies
`row_stride = ⌈width/8⌉`, `plane_stride = row_stride*height` and storage length
exactly `plane_stride*planes`. -/
def Geom (b : Bitplanes) : Prop :=
  b.row_stride = (b.width + 7) / 8 ∧
  b.plane_stride = b.row_stride * b.height ∧
  b.data.length = b.plane_stride * b.planes

instance (b : Bitplanes) : Decidable (Geom b) := by
  unfold Geom; infer_instance

/-- Every storage byte fits in a `u8`. -/
def Bytes (b : Bitplanes) : Prop := ∀ x ∈ b.data, x < 256

instance (b : Bitplanes) : Decidable (Bytes b) := by
  unfold Bytes; infer_instance

/-- Full validity: canonical strides plus byte range. -/
def Valid (b : Bitplanes) : Prop := Geom b ∧ Bytes b

instance (b : Bitplanes) : Decidable (Valid b) := by
  unfold Valid; infer_instance

/-- Relaxed stride invariant (the spec's data-model invariant allowing larger
alignment-driven strides): `row_stride ≥ ⌈width/8⌉`, `plane_stride ≥
row_stride*height`, storage length exactly `plane_stride*planes`. -/
def StrideValid (b : Bitplanes) : Prop :=
  (b.width + 7) / 8 ≤ b.row_stride ∧
  b.row_stride * b.height ≤ b.plane_stride ∧
  b.data.length = b.plane_stride * b.planes

instance (b : Bitplanes) : Decidable (StrideValid b) := by
  unfold StrideValid; infer_instance

/-! ## List and fold helpers -/

theorem getD_map_range (f : Nat → Nat) (n i : Nat) :
    ((List.range n).map f).getD i 0 = if i < n then f i else 0 := by
  rw [List.getD_eq_getElem?_getD, List.getElem?_map]
  by_cases h : i < n
  · rw [List.getElem?_range h]; simp [h]
  · rw [List.getElem?_eq_none (by simpa using Nat.le_of_not_lt h)]; simp [h]

theorem getD_outside {d : List Nat} {i : Nat} (h : d.length ≤ i) : d.getD i 0 = 0 := by
  rw [List.getD_eq_getElem?_getD, List.getElem?_eq_none h]; rfl

theorem copyWithin_length (d s : List Nat) (doff soff len : Nat) :
    (copyWithin d s doff soff len).length = d.length := by
  simp [copyWithin]

theorem copyWithin_getD (d s : List Nat) (doff soff len i : Nat) :
    (copyWithin d s doff soff len).getD i 0 =
      if i < d.length ∧ doff ≤ i ∧ i < doff + len then s.getD (soff + (i - doff)) 0
      else d.getD i 0 := by
  by_cases hi : i < d.length
  · rw [copyWithin, getD_map_range, if_pos hi]
    by_cases hr : doff ≤ i ∧ i < doff + len
    · rw [if_pos hr, if_pos ⟨hi, hr⟩]
    · rw [if_neg hr, if_neg (by tauto)]
  · rw [if_neg (by tauto), getD_outside (by rw [copyWithin_length]; omega),
      getD_outside (by omega)]

theorem swapRanges_length (d : List Nat) (off0 off1 len : Nat) :
    (swapRanges d off0 off1 len).length = d.length := by
  simp [swapRanges]

theorem swapRanges_getD (d : List Nat) (off0 off1 len i : Nat) (hi : i < d.length) :
    (swapRanges d off0 off1 len).getD i 0 =
      if off0 ≤ i ∧ i < off0 + len then d.getD (off1 + (i - off0)) 0
      else if off1 ≤ i ∧ i < off1 + len then d.getD (off0 + (i - off1)) 0
      else d.getD i 0 := by
  rw [swapRanges, getD_map_range, if_pos hi]

theorem foldl_length (g : List Nat → Nat → List Nat)
    (hg : ∀ d p, (g d p).length = d.length) :
    ∀ (l : List Nat) (d : List Nat), (l.foldl g d).length = d.length := by
  intro l
  induction l with
  | nil => intro d; rfl
  | cons a t ih => intro d; rw [List.foldl_cons, ih, hg]

theorem foldl_frame (g : List Nat → Nat → List Nat) (i : Nat) :
    ∀ (l : List Nat) (d : List Nat),
      (∀ d' p, p ∈ l → (g d' p).getD i 0 = d'.getD i 0) →
      (l.foldl g d).getD i 0 = d.getD i 0 := by
  intro l
  induction l with
  | nil => intro d _; rfl
  | cons a t ih =>
    intro d h
    rw [List.foldl_cons, ih _ (fun d' p hp => h d' p (List.mem_cons_of_mem a hp)),
      h d a (List.mem_cons_self a t)]

theorem foldl_setfrom (g : List Nat → Nat → List Nat) (i v L : Nat)
    (p : Nat) (l₁ l₂ : List Nat) (d : List Nat)
    (hd : d.length = L)
    (hLen : ∀ d' q, (g d' q).length = d'.length)
    (hset : ∀ d', d'.length = L → (g d' p).getD i 0 = v)
    (hframe : ∀ d' q, q ∈ l₂ → (g d' q).getD i 0 = d'.getD i 0) :
    ((l₁ ++ p :: l₂).foldl g d).getD i 0 = v := by
  rw [List.foldl_append, List.foldl_cons, foldl_frame g i l₂ _ hframe]
  exact hset _ (by rw [foldl_length g hLen, hd])

theorem range_decompose {p n : Nat} (hp : p < n) :
    List.range n = List.range p ++ p :: List.range' (p + 1) (n - p - 1) := by
  have h1 := List.range'_append 0 p (n - p) 1
  simp only [Nat.one_mul, Nat.zero_add] at h1
  have h2 : n - p + p = n := by omega
  rw [h2] at h1
  obtain ⟨k, hk⟩ : ∃ k, n - p = k + 1 := ⟨n - p - 1, by omega⟩
  have h3 : n - p - 1 = k := by omega
  rw [List.range_eq_range' n, ← h1, h3, hk, List.range'_succ, List.range_eq_range' p]

theorem mem_range'_gt {p n q : Nat} (hq : q ∈ List.range' (p + 1) n) : p < q ∧ q < p + 1 + n := by
  rw [List.mem_range'] at hq
  obtain ⟨i, hi, rfl⟩ := hq
  omega

/-- The main write-once lemma: a left fold over `List.range n` of region writes,
evaluated at one index `i` that step `p` sets to `v` and later steps leave alone. -/
theorem foldl_range_setfrom (g : List Nat → Nat → List Nat) (i v L n p : Nat)
    (hp : p < n) (d : List Nat) (hd : d.length = L)
    (hLen : ∀ d' q, (g d' q).length = d'.length)
    (hset : ∀ d', d'.length = L → (g d' p).getD i 0 = v)
    (hframe : ∀ d' q, p < q → q < n → (g d' q).getD i 0 = d'.getD i 0) :
    ((List.range n).foldl g d).getD i 0 = v := by
  rw [range_decompose hp]
  refine foldl_setfrom g i v L p _ _ d hd hLen hset ?_
  intro d' q hq
  obtain ⟨h1, h2⟩ := mem_range'_gt hq
  exact hframe d' q h1 (by omega)

/-! ## Arithmetic facts about chunked layouts -/

theorem numChunks_exact {k : Nat} (m : Nat) (hk : 0 < k) : numChunks (k * m) k = m := by
  unfold numChunks
  have h : k * m + k - 1 = (k - 1) + m * k := by rw [Nat.mul_comm m k]; omega
  rw [h, Nat.add_mul_div_right _ _ hk, Nat.div_eq_of_lt (by omega), Nat.zero_add]

theorem chunkLen_exact {k m : Nat} (p : Nat) (hp : p < m) : chunkLen (k * m) k p = k := by
  unfold chunkLen
  have h1 : k * (p + 1) ≤ k * m := Nat.mul_le_mul_left k hp
  rw [Nat.mul_add, Nat.mul_one] at h1
  rw [Nat.mul_comm p k]
  omega

theorem le_numChunks {L k h : Nat} (hk : 0 < k) (hle : k * h ≤ L) : h ≤ numChunks L k := by
  unfold numChunks
  have h1 : h ≤ L / k := (Nat.le_div_iff_mul_le hk).2 (by rw [Nat.mul_comm]; exact hle)
  have h2 : L / k ≤ (L + k - 1) / k := Nat.div_le_div_right (by omega)
  omega

/-! ## Validity invariants -/

theorem geom_new (planes width height : Nat) : Geom (new planes width height) := by
  refine ⟨rfl, rfl, ?_⟩
  simp [new]

theorem bytes_new (planes width height : Nat) : Bytes (new planes width height) := by
  intro x hx
  simp only [new, List.mem_replicate] at hx
  omega

theorem valid_new (planes width height : Nat) : Valid (new planes width height) :=
  ⟨geom_new planes width height, bytes_new planes width height⟩

theorem strideValid_of_geom {b : Bitplanes} (hg : Geom b) : StrideValid b := by
  obtain ⟨h1, h2, h3⟩ := hg
  exact ⟨Nat.le_of_eq h1.symm, Nat.le_of_eq h2.symm, h3⟩

theorem calc_byte_lt {b : Bitplanes} (hv : StrideValid b) {p x y : Nat}
    (hp : p < b.planes) (hx : x < b.width) (hy : y < b.height) :
    (b.calc_indices p x y).1 < b.data.length := by
  obtain ⟨hrs, hps, hL⟩ := hv
  have h8 : x / 8 < b.row_stride := by omega
  have h1 : b.row_stride * (y + 1) ≤ b.row_stride * b.height := Nat.mul_le_mul_left _ (by omega)
  have h2 : b.plane_stride * (p + 1) ≤ b.plane_stride * b.planes := Nat.mul_le_mul_left _ (by omega)
  rw [Nat.mul_add, Nat.mul_one] at h1 h2
  simp only [calc_indices]
  omega

theorem get_isSome {b : Bitplanes} (hv : StrideValid b) {p x y : Nat}
    (hp : p < b.planes) (hx : x < b.width) (hy : y < b.height) :
    (b.get p x y).isSome := by
  rw [get, if_pos (calc_byte_lt hv hp hx hy)]
  rfl

theorem set_isSome {b : Bitplanes} (hv : StrideValid b) {p x y : Nat}
    (hp : p < b.planes) (hx : x < b.width) (hy : y < b.height) (v : Bool) :
    (b.set p x y v).isSome := by
  rw [set, if_pos (calc_byte_lt hv hp hx hy)]
  rfl

theorem calc_indices_inj {b : Bitplanes} (hg : Geom b) {p x y p' x' y' : Nat}
    (hp : p < b.planes) (hx : x < b.width) (hy : y < b.height)
    (hp' : p' < b.planes) (hx' : x' < b.width) (hy' : y' < b.height)
    (h1 : (b.calc_indices p x y).1 = (b.calc_indices p' x' y').1)
    (h2 : x % 8 = x' % 8) : p = p' ∧ x = x' ∧ y = y' := by
  obtain ⟨hrs, hps, hL⟩ := hg
  have h8 : x / 8 < b.row_stride := by omega
  have h8' : x' / 8 < b.row_stride := by omega
  have hrs0 : 0 < b.row_stride := by omega
  have hps0 : 0 < b.plane_stride := by
    rw [hps]; exact Nat.mul_pos hrs0 (by omega)
  have hA : b.row_stride * y + x / 8 < b.plane_stride := by
    have := Nat.mul_le_mul_left b.row_stride (show y + 1 ≤ b.height by omega)
    rw [Nat.mul_add, Nat.mul_one] at this
    omega
  have hA' : b.row_stride * y' + x' / 8 < b.plane_stride := by
    have := Nat.mul_le_mul_left b.row_stride (show y' + 1 ≤ b.height by omega)
    rw [Nat.mul_add, Nat.mul_one] at this
    omega
  simp only [calc_indices] at h1
  rw [Nat.add_assoc, Nat.add_assoc] at h1
  have hpp : p = p' := by
    have e1 : (b.plane_stride * p + (b.row_stride * y + x / 8)) / b.plane_stride = p := by
      rw [Nat.mul_add_div hps0, Nat.div_eq_of_lt hA, Nat.add_zero]
    have e2 : (b.plane_stride * p' + (b.row_stride * y' + x' / 8)) / b.plane_stride = p' := by
      rw [Nat.mul_add_div hps0, Nat.div_eq_of_lt hA', Nat.add_zero]
    rw [← e1, ← e2, h1]
  subst hpp
  have h1' : b.row_stride * y + x / 8 = b.row_stride * y' + x' / 8 := by omega
  have hyy : y = y' := by
    have e1 : (b.row_stride * y + x / 8) / b.row_stride = y := by
      rw [Nat.mul_add_div hrs0, Nat.div_eq_of_lt h8, Nat.add_zero]
    have e2 : (b.row_stride * y' + x' / 8) / b.row_stride = y' := by
      rw [Nat.mul_add_div hrs0, Nat.div_eq_of_lt h8', Nat.add_zero]
    rw [← e1, ← e2, h1']
  subst hyy
  refine ⟨rfl, ?_, rfl⟩
  omega

/-! ## Shapes of operation results -/

theorem setBitAt_length (d : List Nat) (idx bit : Nat) (v : Bool) :
    (setBitAt d idx bit v).length = d.length := by
  simp [setBitAt]

theorem fillData_length (b : Bitplanes) (f : Nat → Nat → Nat → Bool) :
    (fillData b f).length = b.data.length := by
  unfold fillData
  refine foldl_length _ (fun d i => ?_) _ _
  refine foldl_length _ (fun d2 y => ?_) _ _
  exact foldl_length _ (fun d3 x => setBitAt_length _ _ _ _) _ _

theorem fill_from_fn_eq {b b' : Bitplanes} {f : Nat → Nat → Nat → Bool}
    (h : b.fill_from_fn f = some b') : b' = { b with data := fillData b f } := by
  rw [fill_from_fn] at h
  split at h
  · exact (Option.some.inj h).symm
  · exact absurd h (by simp)

theorem geom_fill_from_fn {b b' : Bitplanes} {f : Nat → Nat → Nat → Bool}
    (hg : Geom b) (h : b.fill_from_fn f = some b') : Geom b' := by
  rw [fill_from_fn_eq h]
  obtain ⟨h1, h2, h3⟩ := hg
  exact ⟨h1, h2, by rw [fillData_length]; exact h3⟩

theorem plane_range_eq {b v : Bitplanes} {s e : Nat} (h : b.plane_range s e = some v) :
    s ≤ e ∧ e * b.plane_stride ≤ b.data.length ∧
    v = { width := b.width, height := b.height, planes := e - s,
          plane_stride := b.plane_stride, row_stride := b.row_stride,
          data := (b.data.take (e * b.plane_stride)).drop (s * b.plane_stride) } := by
  rw [plane_range] at h
  split at h
  · exact absurd h (by simp)
  next hse =>
    split at h
    next hl => exact ⟨by omega, hl, (Option.some.inj h).symm⟩
    next => exact absurd h (by simp)

theorem plane_range_isSome {b : Bitplanes} (hg : Geom b) {s e : Nat}
    (hse : s ≤ e) (hep : e ≤ b.planes) : (b.plane_range s e).isSome := by
  obtain ⟨h1, h2, h3⟩ := hg
  rw [plane_range, if_neg (by omega)]
  have : e * b.plane_stride ≤ b.data.length := by
    rw [h3, Nat.mul_comm b.plane_stride b.planes]
    exact Nat.mul_le_mul_right _ hep
  rw [if_pos this]
  rfl

theorem geom_plane_range {b v : Bitplanes} {s e : Nat} (hg : Geom b)
    (h : b.plane_range s e = some v) : Geom v := by
  obtain ⟨hse, hel, hv⟩ := plane_range_eq h
  obtain ⟨h1, h2, h3⟩ := hg
  subst hv
  refine ⟨h1, h2, ?_⟩
  simp only [List.length_drop, List.length_take]
  have : min (e * b.plane_stride) b.data.length = e * b.plane_stride := by omega
  rw [this, Nat.mul_comm b.plane_stride (e - s), Nat.sub_mul]

theorem split_at_plane_eq {b : Bitplanes} {v0 v1 : Bitplanes} {p : Nat}
    (h : b.split_at_plane p = some (v0, v1)) :
    p * b.plane_stride ≤ b.data.length ∧ p ≤ b.planes ∧
    v0 = { width := b.width, height := b.height, planes := p,
           plane_stride := b.plane_stride, row_stride := b.row_stride,
           data := b.data.take (p * b.plane_stride) } ∧
    v1 = { width := b.width, height := b.height, planes := b.planes - p,
           plane_stride := b.plane_stride, row_stride := b.row_stride,
           data := b.data.drop (p * b.plane_stride) } := by
  rw [split_at_plane] at h
  split at h
  next hc =>
    have := Option.some.inj h
    exact ⟨hc.1, hc.2, congrArg Prod.fst this.symm, congrArg Prod.snd this.symm⟩
  next => exact absurd h (by simp)

theorem split_at_plane_isSome {b : Bitplanes} (hg : Geom b) {p : Nat}
    (hp : p ≤ b.planes) : (b.split_at_plane p).isSome := by
  obtain ⟨h1, h2, h3⟩ := hg
  rw [split_at_plane]
  have : p * b.plane_stride ≤ b.data.length := by
    rw [h3, Nat.mul_comm b.plane_stride b.planes]
    exact Nat.mul_le_mul_right _ hp
  rw [if_pos ⟨this, hp⟩]
  rfl

theorem geom_split_at_plane {b v0 v1 : Bitplanes} {p : Nat} (hg : Geom b)
    (h : b.split_at_plane p = some (v0, v1)) : Geom v0 ∧ Geom v1 := by
  obtain ⟨hpl, hpp, hv0, hv1⟩ := split_at_plane_eq h
  obtain ⟨h1, h2, h3⟩ := hg
  subst hv0; subst hv1
  refine ⟨⟨h1, h2, ?_⟩, ⟨h1, h2, ?_⟩⟩
  · simp only [List.length_take]
    rw [Nat.mul_comm p b.plane_stride] at hpl ⊢
    omega
  · simp only [List.length_drop]
    rw [h3, Nat.mul_comm b.plane_stride (b.planes - p), Nat.sub_mul,
      Nat.mul_comm b.planes b.plane_stride]

/-- With canonical geometry on both sides and matching plane count, width and
height, the strides and lengths coincide, so `copy_from` takes strategy 1 and
replaces the destination storage with the source storage. -/
theorem copy_from_match_eq {dst src : Bitplanes} (hd : Geom dst) (hs : Geom src)
    (hpl : dst.planes = src.planes) (hw : dst.width = src.width)
    (hh : dst.height = src.height) :
    copy_from dst src = some { dst with data := src.data } := by
  obtain ⟨d1, d2, d3⟩ := hd
  obtain ⟨s1, s2, s3⟩ := hs
  have hrs : dst.row_stride = src.row_stride := by rw [d1, s1, hw]
  have hps : dst.plane_stride = src.plane_stride := by rw [d2, s2, hrs, hh]
  have hL : dst.data.length = src.data.length := by rw [d3, s3, hps, hpl]
  rw [copy_from, if_neg (fun hc => hc hpl), if_neg (fun hc => hc hw),
    if_neg (fun hc => hc hh), if_pos ⟨hps, hrs⟩, if_pos hL]

/-- C3: `new(3,10,2)` has `row_stride = 2`, `plane_stride = 4` and 12 zero bytes
of storage; `set(1,9,1,true)` turns on exactly bit 6 (value 64) of byte index 7
and nothing else, after which `get(1,9,1)` is `true` and every other in-range
coordinate still reads `false`. -/
theorem c3_concrete_scenario :
    (new 3 10 2).row_stride = 2 ∧ (new 3 10 2).plane_stride = 4 ∧
    (new 3 10 2).data = List.replicate 12 0 ∧
    ∃ b1, (new 3 10 2).set 1 9 1 true = some b1 ∧
      b1.data = [0, 0, 0, 0, 0, 0, 0, 64, 0, 0, 0, 0] ∧
      b1.get 1 9 1 = some true ∧
      ∀ p < 3, ∀ x < 10, ∀ y < 2,
        b1.get p x y = some (decide (p = 1 ∧ x = 9 ∧ y = 1)) := by
  refine ⟨by decide, by decide, by decide,
    ⟨⟨10, 2, 3, 4, 2, [0, 0, 0, 0, 0, 0, 0, 64, 0, 0, 0, 0]⟩, by decide⟩⟩

/-- C10: `swap_planes` is symmetric in its two plane arguments (it orders them
with `min`/`max` before exchanging), for every buffer and every pair of indices. -/
theorem c10_swap_planes_symm (b : Bitplanes) (p0 p1 : Nat) :
    b.swap_planes p0 p1 = b.swap_planes p1 p0 := by
  by_cases h : p0 = p1
  · subst h; rfl
  · rw [swap_planes, swap_planes, if_neg h, if_neg (Ne.symm h),
      Nat.min_comm p1 p0, Nat.max_comm p1 p0]

/-- C4: for canonically valid buffers, `copy_from` fails exactly when the two
buffers differ in plane count, width or height (and, the checks coming first,
no modified destination is produced on failure); `swap_planes(p, p)` always
fails. -/
theorem c4_fatal_conditions :
    (∀ dst src : Bitplanes, Geom dst → Geom src →
      (copy_from dst src = none ↔
        (dst.planes ≠ src.planes ∨ dst.width ≠ src.width ∨ dst.height ≠ src.height))) ∧
    ∀ (b : Bitplanes) (p : Nat), b.swap_planes p p = none := by
  constructor
  · intro dst src hd hs
    constructor
    · intro hnone
      by_contra hcon
      push_neg at hcon
      obtain ⟨hpl, hw, hh⟩ := hcon
      rw [copy_from_match_eq hd hs hpl hw hh] at hnone
      exact absurd hnone (by simp)
    · intro hmm
      by_cases h1 : dst.planes ≠ src.planes
      · rw [copy_from, if_pos h1]
      · by_cases h2 : dst.width ≠ src.width
        · rw [copy_from, if_neg h1, if_pos h2]
        · by_cases h3 : dst.height ≠ src.height
          · rw [copy_from, if_neg h1, if_neg h2, if_pos h3]
          · exact absurd hmm (by tauto)
  · intro b p
    rw [swap_planes, if_pos rfl]

/-- Witness for C4 at concrete inputs: a plane-count mismatch and a
self-swap. -/
theorem c4_fatal_conditions_witness :
    (copy_from (new 2 4 4) (new 3 4 4) = none ↔
      ((new 2 4 4).planes ≠ (new 3 4 4).planes ∨ (new 2 4 4).width ≠ (new 3 4 4).width ∨
        (new 2 4 4).height ≠ (new 3 4 4).height)) ∧
    (new 1 1 1).swap_planes 0 0 = none :=
  ⟨c4_fatal_conditions.1 (new 2 4 4) (new 3 4 4) (by decide) (by decide),
   c4_fatal_conditions.2 (new 1 1 1) 0⟩

/-- C8 (counterexample): on the canonically valid zero-width buffer
`new 2 0 5` (whose `plane_stride` is 0), `plane_range 0 5` succeeds although
`end = 5 > planes = 2`, refuting "fails whenever end > planes". -/
theorem c8_counterexample :
    Valid (new 2 0 5) ∧ (new 2 0 5).planes = 2 ∧
    ((new 2 0 5).plane_range 0 5).isSome := by decide

/-- C8 (amended): `plane_range start..end` fails exactly when `start > end`
(the `usize` subtraction `end - start` underflows) or `end * plane_stride`
exceeds the storage length — which, for a canonically strided buffer with
`plane_stride > 0`, is `end > planes`, but is never the case when
`plane_stride = 0`. On success the view keeps the parent's width, height and
strides, has `planes = end - start` and shares bytes
`[start*plane_stride, end*plane_stride)`. -/
theorem c8_plane_range_amended (b : Bitplanes) (s e : Nat) :
    (b.plane_range s e = none ↔ s > e ∨ e * b.plane_stride > b.data.length) ∧
    ∀ v, b.plane_range s e = some v →
      v.width = b.width ∧ v.height = b.height ∧ v.planes = e - s ∧
      v.plane_stride = b.plane_stride ∧ v.row_stride = b.row_stride ∧
      v.data = (b.data.take (e * b.plane_stride)).drop (s * b.plane_stride) := by
  constructor
  · rw [plane_range]
    by_cases h1 : s > e
    · simp only [if_pos h1]
      simp only [true_iff]
      exact Or.inl h1
    · rw [if_neg h1]
      by_cases h2 : e * b.plane_stride ≤ b.data.length
      · rw [if_pos h2]
        constructor
        · intro hc
          exact absurd hc (by simp)
        · intro hor
          rcases hor with h | h
          · exact absurd h h1
          · exact absurd h2 (by omega)
      · rw [if_neg h2]
        simp only [true_iff]
        omega
  · intro v hv
    obtain ⟨hse, hel, hveq⟩ := plane_range_eq hv
    subst hveq
    exact ⟨rfl, rfl, rfl, rfl, rfl, rfl⟩

/-- Witness for the amended C8: `plane_range 1 2` on `new 2 8 1`. -/
theorem c8_plane_range_amended_witness :
    (⟨8, 1, 1, 1, 1, [0]⟩ : Bitplanes).width = (new 2 8 1).width ∧
    (⟨8, 1, 1, 1, 1, [0]⟩ : Bitplanes).height = (new 2 8 1).height ∧
    (⟨8, 1, 1, 1, 1, [0]⟩ : Bitplanes).planes = 2 - 1 ∧
    (⟨8, 1, 1, 1, 1, [0]⟩ : Bitplanes).plane_stride = (new 2 8 1).plane_stride ∧
    (⟨8, 1, 1, 1, 1, [0]⟩ : Bitplanes).row_stride = (new 2 8 1).row_stride ∧
    (⟨8, 1, 1, 1, 1, [0]⟩ : Bitplanes).data =
      ((new 2 8 1).data.take (2 * (new 2 8 1).plane_stride)).drop
        (1 * (new 2 8 1).plane_stride) :=
  (c8_plane_range_amended (new 2 8 1) 1 2).2 ⟨8, 1, 1, 1, 1, [0]⟩ (by decide)

/-- The guard of `fill_from_fn` holds on canonically valid geometry with
positive width and height. -/
theorem fillOk_of_geom {b : Bitplanes} (hg : Geom b) (hw : 0 < b.width)
    (hh : 0 < b.height) : fillOk b := by
  obtain ⟨h1, h2, h3⟩ := hg
  have hrs : 0 < b.row_stride := by omega
  have hps : 0 < b.plane_stride := by rw [h2]; exact Nat.mul_pos hrs hh
  have hnP : numChunks b.data.length b.plane_stride = b.planes := by
    rw [h3, numChunks_exact _ hps]
  refine ⟨by omega, Or.inr (by omega), ?_⟩
  intro i hi y hy x hx
  rw [List.mem_range, hnP] at hi
  rw [List.mem_range] at hx
  have hcl : chunkLen b.data.length b.plane_stride i = b.plane_stride := by
    rw [h3]; exact chunkLen_exact i hi
  rw [hcl] at hy ⊢
  have hnR : numChunks b.plane_stride b.row_stride = b.height := by
    rw [h2, numChunks_exact _ hrs]
  rw [List.mem_range, hnR] at hy
  have hx8 : x / 8 < b.row_stride := by omega
  have hrow : b.row_stride * (y + 1) ≤ b.row_stride * b.height :=
    Nat.mul_le_mul_left _ (by omega)
  rw [Nat.mul_add, Nat.mul_one] at hrow
  rw [Nat.lt_min]
  refine ⟨hx8, ?_⟩
  rw [h2, Nat.mul_comm y b.row_stride]
  omega

theorem fill_from_fn_isSome {b : Bitplanes} (hg : Geom b) (hw : 0 < b.width)
    (hh : 0 < b.height) (f : Nat → Nat → Nat → Bool) : (b.fill_from_fn f).isSome := by
  rw [fill_from_fn, if_pos (fillOk_of_geom hg hw hh)]
  rfl

/-- C2 (counterexample): the generator fill on the canonically valid degenerate
buffer `new 1 0 1` (width 0, hence `plane_stride = 0`) panics in
`chunks_mut(0)` instead of completing. -/
theorem c2_counterexample :
    Valid (new 1 0 1) ∧ (new 1 0 1).width = 0 ∧
    (new 1 0 1).fill_from_fn (fun _ _ _ => true) = none := by decide

/-- C2 (amended): for canonically valid buffers, construction, `fill`, the
views with in-range arguments and matching-geometry `copy_from` are total, also
on degenerate zero-size buffers; the generator fills `fill_from_fn` and
`from_fn` are total given `0 < width` and `0 < height`, but panic on
`width = 0` or `height = 0` (then `plane_stride = 0` and `chunks_mut(0)`
aborts). -/
theorem c2_totality_amended :
    (∀ planes width height, Valid (new planes width height)) ∧
    (∀ planes width height f, 0 < width → 0 < height →
      (from_fn planes width height f).isSome) ∧
    ∀ b : Bitplanes, Geom b →
      ((∀ v, (b.fill v).data.length = b.data.length) ∧
       (∀ f, 0 < b.width → 0 < b.height → (b.fill_from_fn f).isSome) ∧
       (∀ s e, s ≤ e → e ≤ b.planes → (b.plane_range s e).isSome) ∧
       (∀ n, n < b.planes → (b.plane n).isSome) ∧
       (∀ p, p ≤ b.planes → (b.split_at_plane p).isSome) ∧
       (∀ src, Geom src → b.planes = src.planes → b.width = src.width →
         b.height = src.height → (copy_from b src).isSome)) := by
  refine ⟨valid_new, ?_, ?_⟩
  · intro planes width height f hw hh
    exact fill_from_fn_isSome (geom_new planes width height) hw hh f
  · intro b hg
    refine ⟨fun v => by simp [fill], fun f hw hh => fill_from_fn_isSome hg hw hh f,
      fun s e hse hep => plane_range_isSome hg hse hep,
      fun n hn => plane_range_isSome hg (Nat.le_succ n) hn,
      fun p hp => split_at_plane_isSome hg hp,
      fun src hgs hpl hw hh => by rw [copy_from_match_eq hg hgs hpl hw hh]; rfl⟩

/-- Witness for the amended C2 at concrete inputs, including a degenerate
zero-height split and a matching-geometry copy. -/
theorem c2_totality_amended_witness :
    (from_fn 1 8 1 (fun _ _ _ => true)).isSome ∧
    ((new 3 10 2).plane_range 1 3).isSome ∧
    ((new 2 4 0).split_at_plane 1).isSome ∧
    (copy_from (new 3 10 2) (new 3 10 2)).isSome :=
  ⟨c2_totality_amended.2.1 1 8 1 (fun _ _ _ => true) (by decide) (by decide),
   (c2_totality_amended.2.2 (new 3 10 2) (by decide)).2.2.1 1 3 (by decide) (by decide),
   (c2_totality_amended.2.2 (new 2 4 0) (by decide)).2.2.2.2.1 1 (by decide),
   (c2_totality_amended.2.2 (new 3 10 2) (by decide)).2.2.2.2.2 (new 3 10 2) (by decide)
     rfl rfl rfl⟩

/-- C7: splitting at any `p ≤ planes` yields two views with plane counts `p`
and `planes - p`, the parent's width, height and strides, whose raw bytes
concatenated in order reproduce the parent's raw bytes exactly. -/
theorem c7_split_at_plane_concat {b : Bitplanes} (hg : Geom b) {p : Nat}
    (hp : p ≤ b.planes) :
    ∃ v0 v1, b.split_at_plane p = some (v0, v1) ∧
      v0.planes = p ∧ v1.planes = b.planes - p ∧
      v0.width = b.width ∧ v1.width = b.width ∧
      v0.height = b.height ∧ v1.height = b.height ∧
      v0.plane_stride = b.plane_stride ∧ v1.plane_stride = b.plane_stride ∧
      v0.row_stride = b.row_stride ∧ v1.row_stride = b.row_stride ∧
      v0.data ++ v1.data = b.data := by
  have hsome := split_at_plane_isSome hg hp
  obtain ⟨⟨v0, v1⟩, hv⟩ := Option.isSome_iff_exists.1 hsome
  obtain ⟨h1, h2, hv0, hv1⟩ := split_at_plane_eq hv
  refine ⟨v0, v1, hv, ?_⟩
  subst hv0; subst hv1
  exact ⟨rfl, rfl, rfl, rfl, rfl, rfl, rfl, rfl, rfl, rfl,
    List.take_append_drop _ _⟩

/-- Witness for C7: splitting `new 3 4 2` at plane 1. -/
theorem c7_split_at_plane_concat_witness :
    ∃ v0 v1, (new 3 4 2).split_at_plane 1 = some (v0, v1) ∧
      v0.planes = 1 ∧ v1.planes = (new 3 4 2).planes - 1 ∧
      v0.width = (new 3 4 2).width ∧ v1.width = (new 3 4 2).width ∧
      v0.height = (new 3 4 2).height ∧ v1.height = (new 3 4 2).height ∧
      v0.plane_stride = (new 3 4 2).plane_stride ∧
      v1.plane_stride = (new 3 4 2).plane_stride ∧
      v0.row_stride = (new 3 4 2).row_stride ∧ v1.row_stride = (new 3 4 2).row_stride ∧
      v0.data ++ v1.data = (new 3 4 2).data :=
  c7_split_at_plane_concat (b := new 3 4 2) (by decide) (p := 1) (by decide)

/-- Buffers this library can construct: owned buffers from `new`/`from_fn`,
and views reached through `plane`, `plane_range` and `split_at_plane`. -/
inductive Reachable : Bitplanes → Prop where
  | new : ∀ planes width height, Reachable (Bitplanes.new planes width height)
  | from_fn : ∀ planes width height f b,
      Bitplanes.from_fn planes width height f = some b → Reachable b
  | plane : ∀ b n v, Reachable b → Bitplanes.plane b n = some v → Reachable v
  | plane_range : ∀ b s e v, Reachable b →
      Bitplanes.plane_range b s e = some v → Reachable v
  | split_left : ∀ b p v0 v1, Reachable b →
      Bitplanes.split_at_plane b p = some (v0, v1) → Reachable v0
  | split_right : ∀ b p v0 v1, Reachable b →
      Bitplanes.split_at_plane b p = some (v0, v1) → Reachable v1

theorem geom_of_reachable {b : Bitplanes} (h : Reachable b) : Geom b := by
  induction h with
  | new planes width height => exact geom_new planes width height
  | from_fn planes width height f b hb =>
      exact geom_fill_from_fn (geom_new planes width height) hb
  | plane b n v _ hv ih =>
      rw [Bitplanes.plane] at hv
      exact geom_plane_range ih hv
  | plane_range b s e v _ hv ih => exact geom_plane_range ih hv
  | split_left b p v0 v1 _ hv ih => exact (geom_split_at_plane ih hv).1
  | split_right b p v0 v1 _ hv ih => exact (geom_split_at_plane ih hv).2

/-- C9: every buffer built by `new`/`from_fn` or viewed through `plane`,
`plane_range`, `split_at_plane` keeps the canonical layout, so any in-range
accessor call computes a byte index strictly below the storage length and
`get`/`set` never fail. -/
theorem c9_reachable_access_safe {b : Bitplanes} (hb : Reachable b) {p x y : Nat}
    (hp : p < b.planes) (hx : x < b.width) (hy : y < b.height) :
    (b.calc_indices p x y).1 < b.data.length ∧
    (b.get p x y).isSome ∧ ∀ v, (b.set p x y v).isSome := by
  have hv := strideValid_of_geom (geom_of_reachable hb)
  exact ⟨calc_byte_lt hv hp hx hy, get_isSome hv hp hx hy,
    fun v => set_isSome hv hp hx hy v⟩

/-- Witness for C9: the range view of planes 1..3 of `new 3 4 2`, accessed at
`(1, 3, 1)`. -/
theorem c9_reachable_access_safe_witness :
    ((⟨4, 2, 2, 2, 1, [0, 0, 0, 0]⟩ : Bitplanes).calc_indices 1 3 1).1 <
      (⟨4, 2, 2, 2, 1, [0, 0, 0, 0]⟩ : Bitplanes).data.length ∧
    ((⟨4, 2, 2, 2, 1, [0, 0, 0, 0]⟩ : Bitplanes).get 1 3 1).isSome ∧
    ∀ v, ((⟨4, 2, 2, 2, 1, [0, 0, 0, 0]⟩ : Bitplanes).set 1 3 1 v).isSome :=
  c9_reachable_access_safe
    (Reachable.plane_range (new 3 4 2) 1 3 ⟨4, 2, 2, 2, 1, [0, 0, 0, 0]⟩
      (Reachable.new 3 4 2) (by decide))
    (by decide) (by decide) (by decide)

theorem swapRanges_involution (d : List Nat) (off0 off1 len : Nat)
    (h01 : off0 + len ≤ off1) (h1L : off1 + len ≤ d.length) :
    swapRanges (swapRanges d off0 off1 len) off0 off1 len = d := by
  have hL := swapRanges_length d off0 off1 len
  have key : ∀ i, i < d.length →
      (swapRanges (swapRanges d off0 off1 len) off0 off1 len).getD i 0 = d.getD i 0 := by
    intro i hi
    rw [swapRanges_getD _ _ _ _ _ (by rw [hL]; exact hi)]
    by_cases c0 : off0 ≤ i ∧ i < off0 + len
    · rw [if_pos c0, swapRanges_getD _ _ _ _ _ (by omega),
        if_neg (by omega), if_pos (by omega)]
      congr 1
      omega
    · rw [if_neg c0]
      by_cases c1 : off1 ≤ i ∧ i < off1 + len
      · rw [if_pos c1, swapRanges_getD _ _ _ _ _ (by omega), if_pos (by omega)]
        congr 1
        omega
      · rw [if_neg c1, swapRanges_getD _ _ _ _ _ hi, if_neg c0, if_neg c1]
  refine List.ext_getElem (by rw [swapRanges_length, hL]) ?_
  intro i hi1 hi2
  rw [← List.getD_eq_getElem _ 0 hi1, ← List.getD_eq_getElem _ 0 hi2]
  exact key i hi2

/-- C6: swapping two distinct in-range planes twice restores the buffer,
fields and storage bytes alike. -/
theorem c6_swap_planes_involution {b : Bitplanes} (hg : Geom b) {a c : Nat}
    (hac : a ≠ c) (ha : a < b.planes) (hc : c < b.planes) :
    (b.swap_planes a c).bind (fun b1 => b1.swap_planes a c) = some b := by
  obtain ⟨h1, h2, h3⟩ := hg
  have hq01 : min a c < max a c := by omega
  have hq1 : max a c < b.planes := by omega
  have e1 : (max a c + 1) * b.plane_stride ≤ b.planes * b.plane_stride :=
    Nat.mul_le_mul_right _ (by omega)
  have e2 : (min a c + 1) * b.plane_stride ≤ max a c * b.plane_stride :=
    Nat.mul_le_mul_right _ (by omega)
  rw [Nat.add_mul, Nat.one_mul] at e1 e2
  have hLen : b.data.length = b.planes * b.plane_stride := by
    rw [h3, Nat.mul_comm]
  have hguard : max a c * b.plane_stride ≤ b.data.length ∧
      min a c * b.plane_stride + b.plane_stride ≤ max a c * b.plane_stride ∧
      b.plane_stride ≤ b.data.length - max a c * b.plane_stride := by
    omega
  rw [swap_planes, if_neg hac, if_pos hguard, Option.some_bind]
  have hL1 : (swapRanges b.data (min a c * b.plane_stride) (max a c * b.plane_stride)
      b.plane_stride).length = b.data.length := swapRanges_length _ _ _ _
  have hguard1 : max a c * b.plane_stride ≤ (swapRanges b.data
      (min a c * b.plane_stride) (max a c * b.plane_stride) b.plane_stride).length ∧
      min a c * b.plane_stride + b.plane_stride ≤ max a c * b.plane_stride ∧
      b.plane_stride ≤ (swapRanges b.data (min a c * b.plane_stride)
        (max a c * b.plane_stride) b.plane_stride).length -
        max a c * b.plane_stride := by
    rw [hL1]
    exact hguard
  rw [swap_planes, if_neg hac, if_pos hguard1]
  rw [swapRanges_involution b.data _ _ _ (by omega) (by omega)]

/-- Witness for C6 on a concrete two-plane buffer. -/
theorem c6_swap_planes_involution_witness :
    ((⟨8, 1, 2, 1, 1, [5, 9]⟩ : Bitplanes).swap_planes 0 1).bind
      (fun b1 => b1.swap_planes 0 1) = some ⟨8, 1, 2, 1, 1, [5, 9]⟩ :=
  c6_swap_planes_involution (by decide) (by decide) (by decide) (by decide)

/-! ## Bit-level facts -/

theorem one_shiftLeft_eq (n : Nat) : (1 : Nat) <<< n = 2 ^ n := by
  rw [Nat.shiftLeft_eq, Nat.one_mul]

theorem testBit_255_of_lt {j : Nat} (hj : j < 8) : (255 : Nat).testBit j = true := by
  have h : (255 : Nat) = 2 ^ 8 - 1 := by norm_num
  rw [h, Nat.testBit_two_pow_sub_one]
  simpa using hj

theorem testBit_255_of_ge {j : Nat} (hj : 8 ≤ j) : (255 : Nat).testBit j = false := by
  refine Nat.testBit_lt_two_pow ?_
  calc (255 : Nat) < 2 ^ 8 := by norm_num
  _ ≤ 2 ^ j := Nat.pow_le_pow_right (by norm_num) hj

theorem decide_pos_and_two_pow (n i : Nat) : decide (0 < n &&& 2 ^ i) = n.testBit i := by
  rw [Nat.and_two_pow]
  cases h : n.testBit i
  · simp
  · simp [Nat.pos_pow_of_pos]

theorem setByte_testBit_self (old bit : Nat) (hbit : bit < 8) (v : Bool) :
    (if v then old ||| 1 <<< bit else old &&& (255 ^^^ 1 <<< bit)).testBit bit = v := by
  rw [one_shiftLeft_eq]
  cases v
  · simp [Nat.testBit_and, Nat.testBit_xor, Nat.testBit_two_pow, testBit_255_of_lt hbit]
  · simp [Nat.testBit_or, Nat.testBit_two_pow]

theorem setByte_testBit_other (old bit j : Nat) (hold : old < 256) (hj : j ≠ bit)
    (v : Bool) :
    (if v then old ||| 1 <<< bit else old &&& (255 ^^^ 1 <<< bit)).testBit j =
      old.testBit j := by
  rw [one_shiftLeft_eq]
  have hpow : (2 ^ bit).testBit j = false := by
    rw [Nat.testBit_two_pow]
    simp [Ne.symm hj]
  cases v
  · simp only [Bool.false_eq_true, if_false, Nat.testBit_and, Nat.testBit_xor, hpow]
    by_cases h8 : j < 8
    · rw [testBit_255_of_lt h8]
      simp
    · rw [testBit_255_of_ge (by omega)]
      have hoj : old.testBit j = false := Nat.testBit_lt_two_pow (by
        calc old < 256 := hold
        _ = 2 ^ 8 := by norm_num
        _ ≤ 2 ^ j := Nat.pow_le_pow_right (by norm_num) (by omega))
      simp [hoj]
  · simp [Nat.testBit_or, hpow]

theorem getD_set_self {d : List Nat} {idx : Nat} (h : idx < d.length) (a : Nat) :
    (d.set idx a).getD idx 0 = a := by
  rw [List.getD_eq_getElem _ 0 (by rw [List.length_set]; exact h)]
  exact List.getElem_set_self _

theorem getD_set_other {d : List Nat} {idx j : Nat} (h : idx ≠ j) (a : Nat) :
    (d.set idx a).getD j 0 = d.getD j 0 := by
  by_cases hj : j < d.length
  · rw [List.getD_eq_getElem _ 0 (by rw [List.length_set]; exact hj),
      List.getD_eq_getElem _ 0 hj]
    exact List.getElem_set_ne h _
  · rw [getD_outside (by rw [List.length_set]; omega), getD_outside (by omega)]

theorem getD_lt_256 {b : Bitplanes} (hB : Bytes b) {i : Nat} (hi : i < b.data.length) :
    b.data.getD i 0 < 256 := by
  rw [List.getD_eq_getElem _ 0 hi]
  exact hB _ (List.getElem_mem hi)

theorem get_eq_of_lt {b : Bitplanes} {p x y : Nat}
    (h : (b.calc_indices p x y).1 < b.data.length) :
    b.get p x y =
      some ((b.data.getD (b.calc_indices p x y).1 0).testBit (b.calc_indices p x y).2) := by
  simp only [get]
  rw [if_pos h, one_shiftLeft_eq, decide_pos_and_two_pow]

theorem set_eq_of_lt {b : Bitplanes} {p x y : Nat} (v : Bool)
    (h : (b.calc_indices p x y).1 < b.data.length) :
    b.set p x y v =
      some
        { b with
          data := setBitAt b.data (b.calc_indices p x y).1 (b.calc_indices p x y).2 v } := by
  simp only [set]
  rw [if_pos h]

theorem get_data_congr {b : Bitplanes} (d' : List Nat) (hL : d'.length = b.data.length)
    {p x y : Nat} (h : (b.calc_indices p x y).1 < b.data.length) :
    ({ b with data := d' } : Bitplanes).get p x y =
      some ((d'.getD (b.calc_indices p x y).1 0).testBit (b.calc_indices p x y).2) := by
  have h' : (({ b with data := d' } : Bitplanes).calc_indices p x y).1 <
      ({ b with data := d' } : Bitplanes).data.length := by
    show (b.calc_indices p x y).1 < d'.length
    omega
  rw [get_eq_of_lt h']
  rfl

/-- C5: after `set(p,x,y,v)`, `get(p,x,y)` reads `v`, `get` at every other
in-range coordinate is unchanged, and every bit of the written byte other than
the written one — padding bits included — is untouched. -/
theorem c5_set_get_frame {b : Bitplanes} (hb : Valid b) {p x y p' x' y' : Nat}
    (hp : p < b.planes) (hx : x < b.width) (hy : y < b.height)
    (hp' : p' < b.planes) (hx' : x' < b.width) (hy' : y' < b.height)
    (hne : ¬(p = p' ∧ x = x' ∧ y = y')) (v : Bool) :
    ∃ b1, b.set p x y v = some b1 ∧
      b1.get p x y = some v ∧
      b1.get p' x' y' = b.get p' x' y' ∧
      ∀ j, j ≠ 7 - x % 8 →
        (b1.data.getD (b.calc_indices p x y).1 0).testBit j =
          (b.data.getD (b.calc_indices p x y).1 0).testBit j := by
  obtain ⟨hg, hB⟩ := hb
  have hsv := strideValid_of_geom hg
  have hidx : (b.calc_indices p x y).1 < b.data.length := calc_byte_lt hsv hp hx hy
  have hidx' : (b.calc_indices p' x' y').1 < b.data.length := calc_byte_lt hsv hp' hx' hy'
  have hold : b.data.getD (b.calc_indices p x y).1 0 < 256 := getD_lt_256 hB hidx
  have hbit2 : (b.calc_indices p x y).2 = 7 - x % 8 := rfl
  have hbit2' : (b.calc_indices p' x' y').2 = 7 - x' % 8 := rfl
  have hbitlt : (b.calc_indices p x y).2 < 8 := by rw [hbit2]; omega
  refine ⟨_, set_eq_of_lt v hidx, ?_, ?_, ?_⟩
  · rw [get_data_congr _ (setBitAt_length _ _ _ _) hidx]
    rw [setBitAt, getD_set_self hidx, setByte_testBit_self _ _ hbitlt v]
  · rw [get_data_congr _ (setBitAt_length _ _ _ _) hidx', get_eq_of_lt hidx']
    by_cases hII : (b.calc_indices p x y).1 = (b.calc_indices p' x' y').1
    · have hmod : x % 8 ≠ x' % 8 := by
        intro hmm
        exact hne (calc_indices_inj hg hp hx hy hp' hx' hy' hII hmm)
      have hBB : (b.calc_indices p' x' y').2 ≠ (b.calc_indices p x y).2 := by
        rw [hbit2, hbit2']
        omega
      rw [← hII, setBitAt, getD_set_self hidx,
        setByte_testBit_other _ _ _ hold hBB v]
    · rw [setBitAt, getD_set_other hII]
  · intro j hj
    dsimp only
    rw [setBitAt, getD_set_self hidx]
    exact setByte_testBit_other _ _ _ hold (by rw [hbit2]; exact hj) v

/-- Witness for C5 on a concrete buffer: setting `(0, 3, 0)` on a 1×8×1 buffer
and checking coordinate `(0, 5, 0)`. -/
theorem c5_set_get_frame_witness :
    ∃ b1, (⟨8, 1, 1, 1, 1, [170]⟩ : Bitplanes).set 0 3 0 true = some b1 ∧
      b1.get 0 3 0 = some true ∧
      b1.get 0 5 0 = (⟨8, 1, 1, 1, 1, [170]⟩ : Bitplanes).get 0 5 0 ∧
      ∀ j, j ≠ 7 - 3 % 8 →
        (b1.data.getD ((⟨8, 1, 1, 1, 1, [170]⟩ : Bitplanes).calc_indices 0 3 0).1 0).testBit j =
          ((⟨8, 1, 1, 1, 1, [170]⟩ : Bitplanes).data.getD
            ((⟨8, 1, 1, 1, 1, [170]⟩ : Bitplanes).calc_indices 0 3 0).1 0).testBit j :=
  c5_set_get_frame (by decide) (by decide) (by decide) (by decide) (by decide) (by decide)
    (by decide) (by decide) true

/-! ## Copy-engine correctness -/

theorem strat2Data_length (dst src : Bitplanes) :
    (strat2Data dst src).length = dst.data.length := by
  simp only [strat2Data]
  exact foldl_length _ (fun d q => copyWithin_length _ _ _ _ _) _ _

theorem strat3Data_length (dst src : Bitplanes) :
    (strat3Data dst src).length = dst.data.length := by
  simp only [strat3Data]
  refine foldl_length _ (fun d q => ?_) _ _
  exact foldl_length _ (fun d2 r => copyWithin_length _ _ _ _ _) _ _

theorem strat2_ok {dst src : Bitplanes} (hd : StrideValid dst) (hs : StrideValid src)
    (hpl : dst.planes = src.planes) (hw : dst.width = src.width)
    (hh : dst.height = src.height) (hrs : dst.row_stride = src.row_stride)
    (hw0 : 0 < dst.width) (hh0 : 0 < dst.height) : strat2Ok dst src := by
  obtain ⟨hd1, hd2, hd3⟩ := hd
  obtain ⟨hs1, hs2, hs3⟩ := hs
  have hdrs : 0 < dst.row_stride := by omega
  have hsrs : 0 < src.row_stride := by omega
  have hdps : 0 < dst.plane_stride := by
    have := Nat.mul_pos hdrs hh0
    omega
  have hsps : 0 < src.plane_stride := by
    have h0 : 0 < src.height := by omega
    have := Nat.mul_pos hsrs h0
    omega
  have hnd : numChunks dst.data.length dst.plane_stride = dst.planes := by
    rw [hd3, numChunks_exact _ hdps]
  have hns : numChunks src.data.length src.plane_stride = src.planes := by
    rw [hs3, numChunks_exact _ hsps]
  refine ⟨by omega, by omega, ?_⟩
  intro q hq
  rw [List.mem_range, hnd, hns, ← hpl, Nat.min_self] at hq
  constructor
  · rw [hd3, chunkLen_exact q hq]
    exact hd2
  · rw [hs3, chunkLen_exact q (by omega), hrs, hh]
    exact hs2

theorem strat2_correct {dst src : Bitplanes} (hd : StrideValid dst) (hs : StrideValid src)
    (hpl : dst.planes = src.planes) (hw : dst.width = src.width)
    (hh : dst.height = src.height) (hrs : dst.row_stride = src.row_stride)
    (hw0 : 0 < dst.width) (hh0 : 0 < dst.height)
    {p x y : Nat} (hp : p < dst.planes) (hx : x < dst.width) (hy : y < dst.height) :
    (strat2Data dst src).getD (dst.plane_stride * p + dst.row_stride * y + x / 8) 0 =
      src.data.getD (src.plane_stride * p + src.row_stride * y + x / 8) 0 := by
  have hI : dst.plane_stride * p + dst.row_stride * y + x / 8 < dst.data.length :=
    calc_byte_lt hd hp hx hy
  obtain ⟨hd1, hd2, hd3⟩ := hd
  obtain ⟨hs1, hs2, hs3⟩ := hs
  have hdrs : 0 < dst.row_stride := by omega
  have hdps : 0 < dst.plane_stride := by
    have := Nat.mul_pos hdrs hh0
    omega
  have hsrs : 0 < src.row_stride := by omega
  have hsps : 0 < src.plane_stride := by
    have h0 : 0 < src.height := by omega
    have := Nat.mul_pos hsrs (show 0 < src.height by omega)
    omega
  have hnd : numChunks dst.data.length dst.plane_stride = dst.planes := by
    rw [hd3, numChunks_exact _ hdps]
  have hns : numChunks src.data.length src.plane_stride = src.planes := by
    rw [hs3, numChunks_exact _ hsps]
  have hmin : min (numChunks dst.data.length dst.plane_stride)
      (numChunks src.data.length src.plane_stride) = dst.planes := by
    rw [hnd, hns, ← hpl, Nat.min_self]
  have hx8 : x / 8 < dst.row_stride := by omega
  have hrow : dst.row_stride * y + dst.row_stride ≤ dst.row_stride * dst.height := by
    have := Nat.mul_le_mul_left dst.row_stride (show y + 1 ≤ dst.height by omega)
    rw [Nat.mul_add, Nat.mul_one] at this
    exact this
  have e1 : p * dst.plane_stride = dst.plane_stride * p := Nat.mul_comm _ _
  have e2 : p * src.plane_stride = src.plane_stride * p := Nat.mul_comm _ _
  have e3 : dst.row_stride * y = src.row_stride * y := by rw [hrs]
  have hset : ∀ d', d'.length = dst.data.length →
      (copyWithin d' src.data (p * dst.plane_stride) (p * src.plane_stride)
        (dst.row_stride * dst.height)).getD
        (dst.plane_stride * p + dst.row_stride * y + x / 8) 0 =
      src.data.getD (src.plane_stride * p + src.row_stride * y + x / 8) 0 := by
    intro d' hd'
    have hcond : dst.plane_stride * p + dst.row_stride * y + x / 8 < d'.length ∧
        p * dst.plane_stride ≤ dst.plane_stride * p + dst.row_stride * y + x / 8 ∧
        dst.plane_stride * p + dst.row_stride * y + x / 8 <
          p * dst.plane_stride + dst.row_stride * dst.height := by
      omega
    rw [copyWithin_getD, if_pos hcond]
    congr 1
    omega
  have hframe : ∀ d' q, p < q → q < dst.planes →
      (copyWithin d' src.data (q * dst.plane_stride) (q * src.plane_stride)
        (dst.row_stride * dst.height)).getD
        (dst.plane_stride * p + dst.row_stride * y + x / 8) 0 =
      d'.getD (dst.plane_stride * p + dst.row_stride * y + x / 8) 0 := by
    intro d' q hpq hq
    have e4 : dst.plane_stride * (p + 1) ≤ dst.plane_stride * q :=
      Nat.mul_le_mul_left _ (by omega)
    rw [Nat.mul_add, Nat.mul_one] at e4
    have e5 : q * dst.plane_stride = dst.plane_stride * q := Nat.mul_comm _ _
    rw [copyWithin_getD, if_neg ?_]
    rintro ⟨-, hc, -⟩
    omega
  simp only [strat2Data]
  rw [hmin]
  exact foldl_range_setfrom
    (fun d q => copyWithin d src.data (q * dst.plane_stride) (q * src.plane_stride)
      (dst.row_stride * dst.height))
    (dst.plane_stride * p + dst.row_stride * y + x / 8)
    (src.data.getD (src.plane_stride * p + src.row_stride * y + x / 8) 0)
    dst.data.length dst.planes p hp dst.data rfl
    (fun d' q => copyWithin_length _ _ _ _ _)
    hset hframe

theorem rowsIter_eq {dst src : Bitplanes} (hd : StrideValid dst) (hs : StrideValid src)
    (hpl : dst.planes = src.planes) (hw : dst.width = src.width)
    (hh : dst.height = src.height) (hw0 : 0 < dst.width) (hh0 : 0 < dst.height)
    {q : Nat} (hq : q < dst.planes) : rowsIter dst src q = dst.height := by
  obtain ⟨hd1, hd2, hd3⟩ := hd
  obtain ⟨hs1, hs2, hs3⟩ := hs
  have hdrs : 0 < dst.row_stride := by omega
  have hsrs : 0 < src.row_stride := by omega
  unfold rowsIter
  rw [hd3, chunkLen_exact q hq, hs3, chunkLen_exact q (by omega)]
  have r1 : dst.height ≤ numChunks dst.plane_stride dst.row_stride :=
    le_numChunks hdrs hd2
  have r2 : dst.height ≤ numChunks src.plane_stride src.row_stride := by
    refine le_numChunks hsrs ?_
    rw [hh]
    exact hs2
  omega

theorem strat3_ok {dst src : Bitplanes} (hd : StrideValid dst) (hs : StrideValid src)
    (hpl : dst.planes = src.planes) (hw : dst.width = src.width)
    (hh : dst.height = src.height) (hw0 : 0 < dst.width) (hh0 : 0 < dst.height) :
    strat3Ok dst src := by
  have hd1 := hd.1
  have hd2 := hd.2.1
  have hd3 := hd.2.2
  have hs1 := hs.1
  have hs2 := hs.2.1
  have hs3 := hs.2.2
  have hdrs : 0 < dst.row_stride := by omega
  have hsrs : 0 < src.row_stride := by omega
  have hdps : 0 < dst.plane_stride := by
    have := Nat.mul_pos hdrs hh0
    omega
  have hsps : 0 < src.plane_stride := by
    have := Nat.mul_pos hsrs (show 0 < src.height by omega)
    omega
  have hnd : numChunks dst.data.length dst.plane_stride = dst.planes := by
    rw [hd3, numChunks_exact _ hdps]
  have hns : numChunks src.data.length src.plane_stride = src.planes := by
    rw [hs3, numChunks_exact _ hsps]
  refine ⟨by omega, by omega, Or.inr ⟨by omega, by omega⟩, ?_⟩
  intro q hq r hr
  rw [List.mem_range, hnd, hns, ← hpl, Nat.min_self] at hq
  rw [List.mem_range, rowsIter_eq hd hs hpl hw hh hw0 hh0 hq] at hr
  rw [hd3, chunkLen_exact q hq, hs3, chunkLen_exact q (by omega)]
  have hrowd : dst.row_stride * r + dst.row_stride ≤ dst.row_stride * dst.height := by
    have := Nat.mul_le_mul_left dst.row_stride (show r + 1 ≤ dst.height by omega)
    rw [Nat.mul_add, Nat.mul_one] at this
    exact this
  have hrows : src.row_stride * r + src.row_stride ≤ src.row_stride * src.height := by
    have := Nat.mul_le_mul_left src.row_stride (show r + 1 ≤ src.height by omega)
    rw [Nat.mul_add, Nat.mul_one] at this
    exact this
  have ed : r * dst.row_stride = dst.row_stride * r := Nat.mul_comm _ _
  have es : r * src.row_stride = src.row_stride * r := Nat.mul_comm _ _
  have hlen3s : (dst.width + 7) / 8 ≤ src.row_stride := by rw [hw]; exact hs1
  constructor
  · rw [Nat.le_min]
    exact ⟨hd1, by omega⟩
  · rw [Nat.le_min]
    exact ⟨hlen3s, by omega⟩

theorem strat3_correct {dst src : Bitplanes} (hd : StrideValid dst) (hs : StrideValid src)
    (hpl : dst.planes = src.planes) (hw : dst.width = src.width)
    (hh : dst.height = src.height) (hw0 : 0 < dst.width) (hh0 : 0 < dst.height)
    {p x y : Nat} (hp : p < dst.planes) (hx : x < dst.width) (hy : y < dst.height) :
    (strat3Data dst src).getD (dst.plane_stride * p + dst.row_stride * y + x / 8) 0 =
      src.data.getD (src.plane_stride * p + src.row_stride * y + x / 8) 0 := by
  have hI : dst.plane_stride * p + dst.row_stride * y + x / 8 < dst.data.length :=
    calc_byte_lt hd hp hx hy
  have hd1 := hd.1
  have hd2 := hd.2.1
  have hd3 := hd.2.2
  have hs1 := hs.1
  have hs2 := hs.2.1
  have hs3 := hs.2.2
  have hdrs : 0 < dst.row_stride := by omega
  have hsrs : 0 < src.row_stride := by omega
  have hdps : 0 < dst.plane_stride := by
    have := Nat.mul_pos hdrs hh0
    omega
  have hsps : 0 < src.plane_stride := by
    have := Nat.mul_pos hsrs (show 0 < src.height by omega)
    omega
  have hnd : numChunks dst.data.length dst.plane_stride = dst.planes := by
    rw [hd3, numChunks_exact _ hdps]
  have hns : numChunks src.data.length src.plane_stride = src.planes := by
    rw [hs3, numChunks_exact _ hsps]
  have hmin : min (numChunks dst.data.length dst.plane_stride)
      (numChunks src.data.length src.plane_stride) = dst.planes := by
    rw [hnd, hns, ← hpl, Nat.min_self]
  have hx8 : x / 8 < (dst.width + 7) / 8 := by omega
  have e1 : p * dst.plane_stride = dst.plane_stride * p := Nat.mul_comm _ _
  have e2 : p * src.plane_stride = src.plane_stride * p := Nat.mul_comm _ _
  have ey1 : y * dst.row_stride = dst.row_stride * y := Nat.mul_comm _ _
  have ey2 : y * src.row_stride = src.row_stride * y := Nat.mul_comm _ _
  have hinner_set : ∀ d2 : List Nat, d2.length = dst.data.length →
      (copyWithin d2 src.data (p * dst.plane_stride + y * dst.row_stride)
        (p * src.plane_stride + y * src.row_stride) ((dst.width + 7) / 8)).getD
        (dst.plane_stride * p + dst.row_stride * y + x / 8) 0 =
      src.data.getD (src.plane_stride * p + src.row_stride * y + x / 8) 0 := by
    intro d2 hd2'
    have hcond : dst.plane_stride * p + dst.row_stride * y + x / 8 < d2.length ∧
        p * dst.plane_stride + y * dst.row_stride ≤
          dst.plane_stride * p + dst.row_stride * y + x / 8 ∧
        dst.plane_stride * p + dst.row_stride * y + x / 8 <
          p * dst.plane_stride + y * dst.row_stride + (dst.width + 7) / 8 := by
      omega
    rw [copyWithin_getD, if_pos hcond]
    congr 1
    omega
  have hinner_frame : ∀ (d2 : List Nat) (r : Nat), y < r → r < dst.height →
      (copyWithin d2 src.data (p * dst.plane_stride + r * dst.row_stride)
        (p * src.plane_stride + r * src.row_stride) ((dst.width + 7) / 8)).getD
        (dst.plane_stride * p + dst.row_stride * y + x / 8) 0 =
      d2.getD (dst.plane_stride * p + dst.row_stride * y + x / 8) 0 := by
    intro d2 r hyr hr
    have e4 : dst.row_stride * (y + 1) ≤ dst.row_stride * r :=
      Nat.mul_le_mul_left _ (by omega)
    rw [Nat.mul_add, Nat.mul_one] at e4
    have e5 : r * dst.row_stride = dst.row_stride * r := Nat.mul_comm _ _
    have hlen3 : (dst.width + 7) / 8 ≤ dst.row_stride := hd1
    rw [copyWithin_getD, if_neg ?_]
    rintro ⟨-, hc, -⟩
    omega
  have houter_set : ∀ d' : List Nat, d'.length = dst.data.length →
      ((List.range (rowsIter dst src p)).foldl
        (fun d2 r => copyWithin d2 src.data
          (p * dst.plane_stride + r * dst.row_stride)
          (p * src.plane_stride + r * src.row_stride) ((dst.width + 7) / 8)) d').getD
        (dst.plane_stride * p + dst.row_stride * y + x / 8) 0 =
      src.data.getD (src.plane_stride * p + src.row_stride * y + x / 8) 0 := by
    intro d' hd'
    rw [rowsIter_eq hd hs hpl hw hh hw0 hh0 hp]
    exact foldl_range_setfrom _
      (dst.plane_stride * p + dst.row_stride * y + x / 8)
      (src.data.getD (src.plane_stride * p + src.row_stride * y + x / 8) 0)
      dst.data.length dst.height y hy d' hd'
      (fun d2 r => copyWithin_length _ _ _ _ _) hinner_set hinner_frame
  have houter_frame : ∀ (d' : List Nat) (q : Nat), p < q → q < dst.planes →
      ((List.range (rowsIter dst src q)).foldl
        (fun d2 r => copyWithin d2 src.data
          (q * dst.plane_stride + r * dst.row_stride)
          (q * src.plane_stride + r * src.row_stride) ((dst.width + 7) / 8)) d').getD
        (dst.plane_stride * p + dst.row_stride * y + x / 8) 0 =
      d'.getD (dst.plane_stride * p + dst.row_stride * y + x / 8) 0 := by
    intro d' q hpq hq
    refine foldl_frame _ _ _ _ ?_
    intro d2 r hrmem
    have e4 : dst.plane_stride * (p + 1) ≤ dst.plane_stride * q :=
      Nat.mul_le_mul_left _ (by omega)
    rw [Nat.mul_add, Nat.mul_one] at e4
    have e5 : q * dst.plane_stride = dst.plane_stride * q := Nat.mul_comm _ _
    have hx8' : x / 8 < dst.row_stride := by omega
    have hrow : dst.row_stride * y + dst.row_stride ≤ dst.row_stride * dst.height := by
      have := Nat.mul_le_mul_left dst.row_stride (show y + 1 ≤ dst.height by omega)
      rw [Nat.mul_add, Nat.mul_one] at this
      exact this
    rw [copyWithin_getD, if_neg ?_]
    rintro ⟨-, hc, -⟩
    omega
  simp only [strat3Data]
  rw [hmin]
  exact foldl_range_setfrom _
    (dst.plane_stride * p + dst.row_stride * y + x / 8)
    (src.data.getD (src.plane_stride * p + src.row_stride * y + x / 8) 0)
    dst.data.length dst.planes p hp dst.data rfl
    (fun d' q => foldl_length _ (fun d2 r => copyWithin_length _ _ _ _ _) _ _)
    houter_set houter_frame

/-- C1: for two stride-valid buffers with equal plane count, width and height
(when the strides disagree, additionally positive width and height, without
which a strategy-2/3 chunk walk would panic on a zero chunk size — a situation
no buffer of this library can reach), `copy_from` succeeds, the destination
then reads identically to the source at every in-range coordinate under
whichever of the three stride-selected strategies was taken, and in the
exact-stride-match case (strategy 1) the destination storage is byte-identical
to the source storage, padding included. -/
theorem c1_copy_from_correct {dst src : Bitplanes}
    (hd : StrideValid dst) (hs : StrideValid src)
    (hpl : dst.planes = src.planes) (hw : dst.width = src.width)
    (hh : dst.height = src.height)
    (hdeg : (dst.plane_stride = src.plane_stride ∧ dst.row_stride = src.row_stride) ∨
      (0 < dst.width ∧ 0 < dst.height)) :
    ∃ d1, copy_from dst src = some d1 ∧
      (∀ p x y, p < dst.planes → x < dst.width → y < dst.height →
        d1.get p x y = src.get p x y) ∧
      (dst.plane_stride = src.plane_stride ∧ dst.row_stride = src.row_stride →
        d1.data = src.data) := by
  by_cases hmatch : dst.plane_stride = src.plane_stride ∧ dst.row_stride = src.row_stride
  · have hL : dst.data.length = src.data.length := by
      rw [hd.2.2, hs.2.2, hmatch.1, hpl]
    refine ⟨{ dst with data := src.data }, ?_, ?_, fun _ => rfl⟩
    · rw [copy_from, if_neg (fun hc => hc hpl), if_neg (fun hc => hc hw),
        if_neg (fun hc => hc hh), if_pos hmatch, if_pos hL]
    · intro p x y hp hx hy
      have hpl' := hpl
      have hci : dst.calc_indices p x y = src.calc_indices p x y := by
        simp only [calc_indices, hmatch.1, hmatch.2]
      have hsrcI : (src.calc_indices p x y).1 < src.data.length :=
        calc_byte_lt hs (by omega) (by omega) (by omega)
      rw [get_data_congr _ hL.symm (by rw [hci, hL]; exact hsrcI), get_eq_of_lt hsrcI, hci]
  · obtain ⟨hw0, hh0⟩ := hdeg.resolve_left hmatch
    by_cases hrs : dst.row_stride = src.row_stride
    · refine ⟨{ dst with data := strat2Data dst src }, ?_, ?_, fun hc => absurd hc hmatch⟩
      · rw [copy_from, if_neg (fun hc => hc hpl), if_neg (fun hc => hc hw),
          if_neg (fun hc => hc hh), if_neg hmatch, if_pos hrs,
          if_pos (strat2_ok hd hs hpl hw hh hrs hw0 hh0)]
      · intro p x y hp hx hy
        have hdI : (dst.calc_indices p x y).1 < dst.data.length :=
          calc_byte_lt hd hp hx hy
        have hsI : (src.calc_indices p x y).1 < src.data.length :=
          calc_byte_lt hs (by omega) (by omega) (by omega)
        rw [get_data_congr _ (strat2Data_length dst src) hdI, get_eq_of_lt hsI]
        show some (((strat2Data dst src).getD
            (dst.plane_stride * p + dst.row_stride * y + x / 8) 0).testBit (7 - x % 8)) =
          some ((src.data.getD
            (src.plane_stride * p + src.row_stride * y + x / 8) 0).testBit (7 - x % 8))
        rw [strat2_correct hd hs hpl hw hh hrs hw0 hh0 hp hx hy]
    · refine ⟨{ dst with data := strat3Data dst src }, ?_, ?_, fun hc => absurd hc hmatch⟩
      · rw [copy_from, if_neg (fun hc => hc hpl), if_neg (fun hc => hc hw),
          if_neg (fun hc => hc hh), if_neg hmatch, if_neg hrs,
          if_pos (strat3_ok hd hs hpl hw hh hw0 hh0)]
      · intro p x y hp hx hy
        have hdI : (dst.calc_indices p x y).1 < dst.data.length :=
          calc_byte_lt hd hp hx hy
        have hsI : (src.calc_indices p x y).1 < src.data.length :=
          calc_byte_lt hs (by omega) (by omega) (by omega)
        rw [get_data_congr _ (strat3Data_length dst src) hdI, get_eq_of_lt hsI]
        show some (((strat3Data dst src).getD
            (dst.plane_stride * p + dst.row_stride * y + x / 8) 0).testBit (7 - x % 8)) =
          some ((src.data.getD
            (src.plane_stride * p + src.row_stride * y + x / 8) 0).testBit (7 - x % 8))
        rw [strat3_correct hd hs hpl hw hh hw0 hh0 hp hx hy]

/-- Witness for C1 at a concrete strategy-3 input: same geometry (1 plane,
9×1), destination row stride 3, source row stride 2. -/
theorem c1_copy_from_correct_witness :
    ∃ d1, copy_from ⟨9, 1, 1, 3, 3, [1, 2, 3]⟩ ⟨9, 1, 1, 2, 2, [170, 128]⟩ = some d1 ∧
      (∀ p x y, p < (⟨9, 1, 1, 3, 3, [1, 2, 3]⟩ : Bitplanes).planes →
        x < (⟨9, 1, 1, 3, 3, [1, 2, 3]⟩ : Bitplanes).width →
        y < (⟨9, 1, 1, 3, 3, [1, 2, 3]⟩ : Bitplanes).height →
        d1.get p x y = (⟨9, 1, 1, 2, 2, [170, 128]⟩ : Bitplanes).get p x y) ∧
      ((⟨9, 1, 1, 3, 3, [1, 2, 3]⟩ : Bitplanes).plane_stride =
          (⟨9, 1, 1, 2, 2, [170, 128]⟩ : Bitplanes).plane_stride ∧
        (⟨9, 1, 1, 3, 3, [1, 2, 3]⟩ : Bitplanes).row_stride =
          (⟨9, 1, 1, 2, 2, [170, 128]⟩ : Bitplanes).row_stride →
        d1.data = (⟨9, 1, 1, 2, 2, [170, 128]⟩ : Bitplanes).data) :=
  c1_copy_from_correct (by decide) (by decide) rfl rfl rfl
    (Or.inr ⟨by decide, by decide⟩)

end Bitplanes
